import Mathlib

/-!
Verification development for the LAO linear-algebra library.

We shallowly embed the dense matrix container (`lao::linalg::Matrix`),
its expression nodes (`src/lao/math/arithmetic.hpp`), and the two linear
solvers (`LU_doolittle`, `solve_jacobi_element`) in Lean.

Scalars are modelled by `ℚ` (exact arithmetic).  The container's backing
`std::vector<S>` is a `List ℚ`; a matrix that the solvers read and write
through its bounds-passing 1-based accessor is modelled as a total
function `ℕ → ℕ → ℚ` updated pointwise, mirroring each assignment of the
source.  C++ `for` loops become `List.foldl` over the same index ranges
(`List.range' a n` is `[a, a+1, …, a+n-1]`).
-/

/-- Pointwise update of a function vector: models `v(i) = val`. -/
def upd1 (f : ℕ → ℚ) (i : ℕ) (v : ℚ) : ℕ → ℚ :=
  fun k => if k = i then v else f k

/-- Pointwise update of a function matrix: models `M(r, c) = val`. -/
def upd2 (M : ℕ → ℕ → ℚ) (r c : ℕ) (v : ℚ) : ℕ → ℕ → ℚ :=
  fun r' c' => if r' = r ∧ c' = c then v else M r' c'

/-- `sumL a n f` is the running sum `for (k = a; k < a + n; ++k) acc += f k`,
the shape of every accumulation loop in the source. -/
def sumL (a n : ℕ) (f : ℕ → ℚ) : ℚ :=
  ((List.range' a n).map f).sum

/-! ## Bounds-checked element access (`lao::linalg::Matrix::operator()`)

`src/lao/linalg/dense/matrix.hpp` lines 222-236: both overloads run
`if (row > R + 1 || col > C + 1) throw std::out_of_range(...)` and then
return `m_elements[(row - 1) * C + (col - 1)]`. -/

/-- The condition under which `operator()(row, col)` throws `OutOfRange`,
exactly as the source writes it. -/
def accessThrows (R C row col : ℕ) : Bool :=
  decide (row > R + 1) || decide (col > C + 1)

/-- The row-major buffer index `(row - 1) * C + (col - 1)` that
`operator()` reads when the check passes (ℕ subtraction, as `size_t`
arithmetic never goes below zero for the inputs considered here). -/
def accessIndex (C row col : ℕ) : ℕ :=
  (row - 1) * C + (col - 1)

/-- Reading element `(row, col)` of a row-major buffer with `Cols = C`,
the value `operator()` returns when the index is inside the buffer. -/
def readEntry (C : ℕ) (buf : List ℚ) (row col : ℕ) : ℚ :=
  buf.getD (accessIndex C row col) 0

/-! ## Expression nodes (`src/lao/math/arithmetic.hpp`)

Operands are anything exposing `operator()(row, col)`; we model an
operand by its evaluation function `ℕ → ℕ → ℚ`. -/

/-- `MatrixMultiplication::operator()(row, col)` (lines 71-95):
`dot = S(); for (i = 0; i < m_lhs.cols(); ++i) dot += m_lhs(row,i) * m_rhs(i,col);`.
`innerDim` is `m_lhs.cols()`, the shared inner dimension `C1`. -/
def mmulNode (lhs rhs : ℕ → ℕ → ℚ) (innerDim : ℕ) (row col : ℕ) : ℚ :=
  ((List.range innerDim).map (fun i => lhs row i * rhs i col)).sum

/-- The 1-based view of an operand whose evaluation function is indexed
from 0: coordinate `(r, c)` of the view is entry `(r-1, c-1)` of the
operand.  This is the repository's public 1-based indexing convention
laid over the expression engine's 0-based internal coordinates. -/
def oneBasedView (f : ℕ → ℕ → ℚ) : ℕ → ℕ → ℚ :=
  fun r c => f (r - 1) (c - 1)

/-- `MatrixElementWiseLT::operator()(row, col)` (lines 332-352): the body
is `return m_lhs(row, col) <= m_rhs(row, col);`, whose `bool` result is
converted to the scalar type as 1/0.  Note the comparison the source
performs is `<=`, not `<`. -/
def ltNode (lhs rhs : ℕ → ℕ → ℚ) (row col : ℕ) : ℚ :=
  if lhs row col ≤ rhs row col then 1 else 0

/-! ## Container constructors and mutators (`lao::linalg::Matrix`) -/

/-- Default constructor: `m_elements(R * C, value_type(0))`. -/
def defaultMatrix (R C : ℕ) : List ℚ :=
  List.replicate (R * C) 0

/-- `Matrix(const std::vector<S>&)`: throws `invalid_argument` when
`elements.size() != R * C`, otherwise adopts the elements. -/
def vectorCtor (R C : ℕ) (elements : List ℚ) : Except Unit (List ℚ) :=
  if elements.length ≠ R * C then Except.error () else Except.ok elements

/-- `std::copy(il.begin(), il.end(), m_elements.begin() + off)`:
writes the elements of `il` at consecutive offsets starting at `off`. -/
def copyRow : List ℚ → ℕ → List ℚ → List ℚ
  | buf, _, [] => buf
  | buf, off, v :: rest => copyRow (buf.set off v) (off + 1) rest

/-- `Matrix(std::initializer_list<std::initializer_list<S>>)`
(`src/lao/linalg/dense/matrix.hpp` lines 162-173): throws
`invalid_argument` ("ShapeMismatch") when
`list.size() != R || list.begin()->size() != C` — note only the FIRST
inner list's length is inspected — then copies each inner list `il` to
row offset `row * C`, incrementing `row`.  (For an empty outer list with
`R = 0` the source dereferences `list.begin()` of an empty list, which is
undefined; the embedding reads `headD []` there.) -/
def matrixFromList (R C : ℕ) (l : List (List ℚ)) : Except Unit (List ℚ) :=
  if l.length ≠ R ∨ (l.headD []).length ≠ C then Except.error ()
  else Except.ok
    ((l.foldl (fun (p : List ℚ × ℕ) il => (copyRow p.1 (p.2 * C) il, p.2 + 1))
      (defaultMatrix R C, 0)).1)

/-- `Matrix(const MatrixExpression&)` (lines 213-220): for `i` in `1..R`
and `j` in `1..C` sets `m_elements[(i-1)*C + (j-1)] = expr(i, j)` into a
zero-initialised buffer of `R * C` scalars. -/
def matrixFromExpr (R C : ℕ) (e : ℕ → ℕ → ℚ) : List ℚ :=
  (List.range' 1 R).foldl
    (fun buf i =>
      (List.range' 1 C).foldl
        (fun b j => b.set ((i - 1) * C + (j - 1)) (e i j)) buf)
    (defaultMatrix R C)

/-- `Matrix::fillf(lambda)` (lines 334-338):
`for (i = 0; i < m_elements.size(); ++i) m_elements[i] = lambda();`.
The stateful zero-argument callable is modelled by a state-passing
generator `g`; the result pairs the new buffer with the generator state
after the loop. -/
def fillf {σ : Type} (g : σ → ℚ × σ) : List ℚ → σ → List ℚ × σ
  | [], s => ([], s)
  | _ :: rest, s =>
      let p := g s
      let q := fillf g rest p.2
      (p.1 :: q.1, q.2)

/-- The generator state after `k` calls. -/
def genState {σ : Type} (g : σ → ℚ × σ) (s : σ) (k : ℕ) : σ :=
  (fun t => (g t).2)^[k] s

/-- The value produced by the generator's `k`-th call (0-based). -/
def genValue {σ : Type} (g : σ → ℚ × σ) (s : σ) (k : ℕ) : ℚ :=
  (g (genState g s k)).1

/-- The stateful counter generator producing `1, 2, 3, …`. -/
def counterGen : ℕ → ℚ × ℕ :=
  fun n => ((n : ℚ), n + 1)

/-- `Matrix::zeros()`: `std::fill` of 0 over the buffer. -/
def zerosOp (buf : List ℚ) : List ℚ :=
  buf.map fun _ => 0

/-- `Matrix::ones()`: `std::fill` of 1 over the buffer. -/
def onesOp (buf : List ℚ) : List ℚ :=
  buf.map fun _ => 1

/-- `Matrix::fill(val)`: `std::fill` of `val` over the buffer. -/
def fillOp (v : ℚ) (buf : List ℚ) : List ℚ :=
  buf.map fun _ => v

/-- `Matrix::eye()`: on the square case, zero-fill then set
`m_elements[i*C + i] = 1` for `i` in `0..R-1`; otherwise the source
throws `logic_error` and the buffer is untouched. -/
def eyeOp (R C : ℕ) (buf : List ℚ) : List ℚ :=
  if R = C then
    (List.range R).foldl (fun b i => b.set (i * C + i) 1) (buf.map fun _ => 0)
  else buf

/-- `Matrix::rand()`: assigns every element a fresh draw `dis(gen)`; the
stream of draws is modelled by the given values for the per-call states,
reusing the same element loop as `fillf`. -/
def randOp (vals : ℕ → ℚ) (buf : List ℚ) : List ℚ :=
  (fillf (fun n => (vals n, n + 1)) buf 0).1

/-- `Matrix::fillf` as a buffer mutation (discarding the final state). -/
def fillfOp (g : ℕ → ℚ × ℕ) (s : ℕ) (buf : List ℚ) : List ℚ :=
  (fillf g buf s).1

/-- Writing through `operator()(row, col) = v`: if the source's bounds
check throws, the buffer is untouched, otherwise the indexed cell is
assigned. -/
def setEntryOp (R C row col : ℕ) (v : ℚ) (buf : List ℚ) : List ℚ :=
  if accessThrows R C row col then buf else buf.set (accessIndex C row col) v

/-- `Matrix::reset()`: `m_elements.clear()`. -/
def resetOp : List ℚ → List ℚ :=
  fun _ => []

/-- The closed fill-policy enumeration `lao::linalg::filltype`. -/
inductive filltype : Type
  | zeros | ones | eye | rand | none

/-- `Matrix(filltype)`: zero-initialises `R * C` elements, then applies
the selected fill; `eye` on a non-square shape throws (`logic_error`),
failing construction. -/
def fillCtor (R C : ℕ) (ft : filltype) (vals : ℕ → ℚ) : Except Unit (List ℚ) :=
  match ft with
  | .zeros => Except.ok (zerosOp (defaultMatrix R C))
  | .ones => Except.ok (onesOp (defaultMatrix R C))
  | .eye =>
      if R = C then Except.ok (eyeOp R C (defaultMatrix R C)) else Except.error ()
  | .rand => Except.ok (randOp vals (defaultMatrix R C))
  | .none => Except.ok (defaultMatrix R C)

/-- The in-place mutation surface of the container (the spec's
"fill/assignment/bulk-mutation" operations, excluding `reset`). -/
inductive MatOp : Type
  | zerosO | onesO | eyeO | fillO (v : ℚ)
  | fillfO (g : ℕ → ℚ × ℕ) (s : ℕ) | randO (vals : ℕ → ℚ)
  | setO (row col : ℕ) (v : ℚ)

/-- Apply one mutation to the backing buffer. -/
def applyOp (R C : ℕ) : MatOp → List ℚ → List ℚ
  | .zerosO => zerosOp
  | .onesO => onesOp
  | .eyeO => eyeOp R C
  | .fillO v => fillOp v
  | .fillfO g s => fillfOp g s
  | .randO vals => randOp vals
  | .setO row col v => setEntryOp R C row col v

/-- `Matrix::is_empty()`: `m_elements.empty()`. -/
def matIsEmpty (buf : List ℚ) : Bool :=
  buf.isEmpty

/-! ## Reading back a materialised expression -/

/-- The loop-order list of 1-based coordinates written by the
expression-materialising constructor. -/
def coordPairs (R C : ℕ) : List (ℕ × ℕ) :=
  (List.range' 1 R).flatMap fun i => (List.range' 1 C).map fun j => (i, j)

/-! ## `LU_doolittle` (`src/unnamed/part_009`, namespace `lao::linalg`)

The procedure receives `A` (const reference) and the output matrices
`L`, `U`; we thread all three through the loops as one state record so
that the frame behaviour (`A` is never written) is part of the
embedding. -/

structure LUState : Type where
  A : ℕ → ℕ → ℚ
  L : ℕ → ℕ → ℚ
  U : ℕ → ℕ → ℚ

/-- The value assigned to `U(j, i)`:
`A(j, i) - sum` with `sum = Σ_{k=1}^{j-1} L(j,k) * U(k,i)`. -/
def computeU (st : LUState) (j i : ℕ) : ℚ :=
  st.A j i - sumL 1 (j - 1) (fun k => st.L j k * st.U k i)

/-- The value assigned to `L(i, j)`:
`(A(i, j) - sum) / U(j, j)` with `sum = Σ_{k=1}^{j-1} L(i,k) * U(k,j)`. -/
def computeL (st : LUState) (i j : ℕ) : ℚ :=
  (st.A i j - sumL 1 (j - 1) (fun k => st.L i k * st.U k j)) / st.U j j

/-- The inner loop `for (i = j; i < C + 1; ++i) { ... U(j, i) = A(j, i) - sum; }`. -/
def stepUrow (N j : ℕ) (st : LUState) : LUState :=
  (List.range' j (N + 1 - j)).foldl
    (fun t i => { t with U := upd2 t.U j i (computeU t j i) }) st

/-- The inner loop `for (i = j + 1; i < R + 1; ++i) { ... L(i, j) = (A(i, j) - sum) / U(j, j); }`. -/
def stepLcol (N j : ℕ) (st : LUState) : LUState :=
  (List.range' (j + 1) (N - j)).foldl
    (fun t i => { t with L := upd2 t.L i j (computeL t i j) }) st

/-- `LU_doolittle(A, L, U)` for an `N × N` system: `L.eye(); U.zeros();`
then the pivot-column loop `for (j = 1; j < R + 1; ++j)` running the two
inner loops above. -/
def LU_doolittle (N : ℕ) (st : LUState) : LUState :=
  (List.range' 1 N).foldl (fun t j => stepLcol N j (stepUrow N j t))
    { st with L := fun r c => if r = c then 1 else 0, U := fun _ _ => 0 }

/-! ## `solve_jacobi_element` (`src/unnamed/part_010`, namespace `lao::linalg`)

State record: the solution vector `x` together with the (read-only in the
source) coefficient matrix `A` and right-hand side `b`; `x_scratch` is the
local scratch vector threaded through the iteration loop. -/

structure JacobiState : Type where
  x : ℕ → ℚ
  A : ℕ → ℕ → ℚ
  b : ℕ → ℚ

/-- The value assigned to `x_scratch(i, 1)`:
`(b(i,1) - sum) / A(i,i)` with `sum = Σ_{j=1}^{R} [j ≠ i] A(i,j) * x(j,1)`. -/
def computeXs (R : ℕ) (A : ℕ → ℕ → ℚ) (b x : ℕ → ℚ) (i : ℕ) : ℚ :=
  (b i - sumL 1 R (fun j => if j ≠ i then A i j * x j else 0)) / A i i

/-- The row loop filling `x_scratch` for one iteration. -/
def scratchFold (R : ℕ) (A : ℕ → ℕ → ℚ) (b x xs : ℕ → ℚ) : ℕ → ℚ :=
  (List.range' 1 R).foldl (fun s i => upd1 s i (computeXs R A b x i)) xs

/-- The error loop: `for (i = 1; i < R + 1; ++i) err += abs(x_scratch(i,1) - x(i,1));`. -/
def errOf (R : ℕ) (x xs : ℕ → ℚ) : ℚ :=
  sumL 1 R (fun i => |xs i - x i|)

/-- The iteration loop of `solve_jacobi_element`, carrying the remaining
iteration budget, the state and the scratch vector.  Returns the final
state and whether convergence (`err < tol`) was reported. -/
def jacobiLoop (R : ℕ) (tol : ℚ) : ℕ → JacobiState → (ℕ → ℚ) → JacobiState × Bool
  | 0, st, _ => (st, false)
  | m + 1, st, xs =>
      let xs' := scratchFold R st.A st.b st.x xs
      let err := errOf R st.x xs'
      if err < tol then ({ st with x := xs' }, true)
      else jacobiLoop R tol m { st with x := xs' } xs'

/-- `solve_jacobi_element(x, A, b, max_iterations, tol)`: sets `x` to all
ones (`x.ones()`, discarding the incoming contents), zero-initialises the
scratch vector (`Matrix<S, R, 1> x_scratch;`), then iterates. -/
def solve_jacobi_element (R : ℕ) (maxIterations : ℕ) (tol : ℚ)
    (st : JacobiState) : JacobiState × Bool :=
  jacobiLoop R tol maxIterations { st with x := fun _ => 1 } (fun _ => 0)

/-- One mathematical Jacobi update of the whole vector (the reference
sequence the loop is compared against). -/
def pureStep (R : ℕ) (A : ℕ → ℕ → ℚ) (b : ℕ → ℚ) (x : ℕ → ℚ) : ℕ → ℚ :=
  fun i => computeXs R A b x i

/-- The iterate sequence: `jacobiSeq R A b m` is the `m`-th Jacobi iterate
beginning from the all-ones starting guess. -/
def jacobiSeq (R : ℕ) (A : ℕ → ℕ → ℚ) (b : ℕ → ℚ) (m : ℕ) : ℕ → ℚ :=
  (pureStep R A b)^[m] (fun _ => 1)

/-- Apply a sequence of in-place mutations to the backing buffer. -/
def applyOps (R C : ℕ) (ops : List MatOp) (buf : List ℚ) : List ℚ :=
  ops.foldl (fun b op => applyOp R C op b) buf

/-- Equality of two vectors on the 1-based index range `[1, R]` (the
coordinates a `Matrix<S, R, 1>` actually stores). -/
def inRangeEq (R : ℕ) (x y : ℕ → ℚ) : Prop :=
  ∀ i, 1 ≤ i → i ≤ R → x i = y i

/-- The L1 update error of the `m`-th Jacobi iteration, as the claim
states it: `err = Σ_i |x_scratch(i) - x(i)|` with `x` the `m`-th iterate
and `x_scratch` the `(m+1)`-st. -/
def errAt (R : ℕ) (A : ℕ → ℕ → ℚ) (b : ℕ → ℚ) (m : ℕ) : ℚ :=
  ∑ i in Finset.Icc 1 R, |jacobiSeq R A b (m + 1) i - jacobiSeq R A b m i|

/-- Loop invariant of `LU_doolittle` after the pivot columns `1..p` have
been processed (`A0` is the untouched input matrix, `N` the size). -/
structure LUInv (A0 : ℕ → ℕ → ℚ) (N p : ℕ) (st : LUState) : Prop where
  hA : st.A = A0
  hLdiag : ∀ r, st.L r r = 1
  hLupper : ∀ r c, r < c → st.L r c = 0
  hLdone : ∀ c, 1 ≤ c → c ≤ p → ∀ r, c < r → r ≤ N →
    st.L r c = (st.A r c - sumL 1 (c - 1) (fun k => st.L r k * st.U k c)) / st.U c c
  hLtodo : ∀ c, p < c → ∀ r, c < r → st.L r c = 0
  hUlower : ∀ r c, c < r → st.U r c = 0
  hUdone : ∀ r, 1 ≤ r → r ≤ p → ∀ c, r ≤ c → c ≤ N →
    st.U r c = st.A r c - sumL 1 (r - 1) (fun k => st.L r k * st.U k c)
  hUtodo : ∀ r, p < r → ∀ c, st.U r c = 0

/-- The 2×2 system of the spec's concrete Jacobi scenario:
`A = [[2,1],[5,7]]`. -/
def jacobiA0 : ℕ → ℕ → ℚ :=
  fun i j =>
    if i = 1 ∧ j = 1 then 2 else if i = 1 ∧ j = 2 then 1
    else if i = 2 ∧ j = 1 then 5 else if i = 2 ∧ j = 2 then 7 else 0

/-- The right-hand side of the concrete Jacobi scenario: `b = [[11],[13]]`. -/
def jacobiB0 : ℕ → ℚ :=
  fun i => if i = 1 then 11 else if i = 2 then 13 else 0

/-- The 3×3 matrix of the spec's concrete LU scenario:
`A = [[1,1,2],[2,1,3],[3,1,1]]`. -/
def luA0 : ℕ → ℕ → ℚ :=
  fun i j =>
    if i = 1 ∧ j = 1 then 1 else if i = 1 ∧ j = 2 then 1
    else if i = 1 ∧ j = 3 then 2
    else if i = 2 ∧ j = 1 then 2 else if i = 2 ∧ j = 2 then 1
    else if i = 2 ∧ j = 3 then 3
    else if i = 3 ∧ j = 1 then 3 else if i = 3 ∧ j = 2 then 1
    else if i = 3 ∧ j = 3 then 1 else 0

/-- The full input state of the concrete LU scenario (the `L`/`U`
arguments are overwritten by the algorithm). -/
def luSt0 : LUState :=
  ⟨luA0, fun _ _ => 0, fun _ _ => 0⟩

theorem sumL_zero (a : ℕ) (f : ℕ → ℚ) : sumL a 0 f = 0 := rfl

theorem sumL_succ (a n : ℕ) (f : ℕ → ℚ) :
    sumL a (n + 1) f = sumL a n f + f (a + n) := by
  simp [sumL, List.range'_concat, List.sum_append]

theorem sumL_succ_head (a n : ℕ) (f : ℕ → ℚ) :
    sumL a (n + 1) f = f a + sumL (a + 1) n f := by
  simp [sumL, List.range'_succ]

theorem sumL_congr (a n : ℕ) (f g : ℕ → ℚ)
    (h : ∀ k, a ≤ k → k < a + n → f k = g k) : sumL a n f = sumL a n g := by
  induction n with
  | zero => rfl
  | succ m ih =>
      rw [sumL_succ, sumL_succ, ih fun k hk hk' => h k hk (by omega)]
      rw [h (a + m) (by omega) (by omega)]

/-- Loop sums starting at 1 agree with `Finset.Icc 1 n` sums
(the notation claims are stated in). -/
theorem sumL_eq_sum_Icc (n : ℕ) (f : ℕ → ℚ) :
    sumL 1 n f = ∑ k in Finset.Icc 1 n, f k := by
  induction n with
  | zero => simp [sumL_zero]
  | succ m ih =>
      rw [sumL_succ, ih, Finset.sum_Icc_succ_top (by omega)]
      simp [Nat.add_comm]

theorem sumL_add_split (a n m : ℕ) (f : ℕ → ℚ) :
    sumL a (n + m) f = sumL a n f + sumL (a + n) m f := by
  induction m with
  | zero => simp [sumL_zero]
  | succ k ih =>
      rw [show n + (k + 1) = (n + k) + 1 by omega, sumL_succ, ih, sumL_succ,
        show a + n + k = a + (n + k) by omega]
      ring

/-- `List.getD`/`List.set` interaction: a write lands at its index. -/
theorem getD_set_eq (l : List ℚ) (i : ℕ) (v d : ℚ) (h : i < l.length) :
    (l.set i v).getD i d = v := by
  induction l generalizing i with
  | nil => simp at h
  | cons x xs ih =>
      cases i with
      | zero => rfl
      | succ j =>
          simp only [List.set, List.getD, List.get?]
          exact ih j (by simpa using h)

/-- `List.getD`/`List.set` interaction: a write leaves other indices alone. -/
theorem getD_set_ne (l : List ℚ) (i j : ℕ) (v d : ℚ) (h : i ≠ j) :
    (l.set i v).getD j d = l.getD j d := by
  induction l generalizing i j with
  | nil => simp
  | cons x xs ih =>
      cases i with
      | zero =>
          cases j with
          | zero => exact absurd rfl h
          | succ k => rfl
      | succ i' =>
          cases j with
          | zero => rfl
          | succ k =>
              simp only [List.set, List.getD, List.get?]
              exact ih i' k (by omega)

/-! ## Generic lemmas about loops of buffer writes

A C++ loop whose body is `m_elements[idx] = val` becomes a `List.foldl`
of `List.set`; these lemmas characterise the resulting buffer. -/

theorem foldl_set_length {α : Type} (l : List α) (idx : α → ℕ) (val : α → ℚ)
    (buf : List ℚ) :
    (l.foldl (fun b p => b.set (idx p) (val p)) buf).length = buf.length := by
  induction l generalizing buf with
  | nil => rfl
  | cons a rest ih => simp [List.foldl_cons, ih]

theorem foldl_set_getD_notin {α : Type} (l : List α) (idx : α → ℕ) (val : α → ℚ)
    (t : ℕ) (d : ℚ) (buf : List ℚ) (h : ∀ p ∈ l, idx p ≠ t) :
    (l.foldl (fun b p => b.set (idx p) (val p)) buf).getD t d = buf.getD t d := by
  induction l generalizing buf with
  | nil => rfl
  | cons a rest ih =>
      rw [List.foldl_cons, ih _ fun p hp => h p (List.mem_cons_of_mem a hp)]
      exact getD_set_ne _ _ _ _ _ (h a (List.mem_cons_self a rest))

theorem foldl_set_getD_mem {α : Type} (l : List α) (idx : α → ℕ) (val : α → ℚ)
    (t : ℕ) (v d : ℚ) (buf : List ℚ) (ht : t < buf.length)
    (hval : ∀ p ∈ l, idx p = t → val p = v) (hmem : ∃ p ∈ l, idx p = t) :
    (l.foldl (fun b p => b.set (idx p) (val p)) buf).getD t d = v := by
  induction l generalizing buf with
  | nil => simp at hmem
  | cons a rest ih =>
      rw [List.foldl_cons]
      by_cases hr : ∃ p ∈ rest, idx p = t
      · exact ih (buf.set (idx a) (val a)) (by simpa using ht)
          (fun p hp => hval p (List.mem_cons_of_mem a hp)) hr
      · have ha : idx a = t := by
          rcases hmem with ⟨p, hp, hpt⟩
          rcases List.mem_cons.mp hp with rfl | hp'
          · exact hpt
          · exact absurd ⟨p, hp', hpt⟩ hr
        rw [foldl_set_getD_notin _ _ _ _ _ _ fun p hp hpt => hr ⟨p, hp, hpt⟩]
        rw [← ha, getD_set_eq _ _ _ _ (ha ▸ ht)]
        exact hval a (List.mem_cons_self a rest) ha

/-- Folding over a flattened list is the nested fold (used to analyse the
doubly nested `for` loops of the constructors). -/
theorem foldl_flatten {α β : Type} (l : List α) (f : α → List β)
    (g : List ℚ → β → List ℚ) (buf : List ℚ) :
    (l.flatMap f).foldl g buf = l.foldl (fun b a => (f a).foldl g b) buf := by
  induction l generalizing buf with
  | nil => rfl
  | cons a rest ih => rw [List.flatMap_cons, List.foldl_append, List.foldl_cons, ih]

/-- Row-major flattening is injective on in-range 1-based coordinates. -/
theorem rowMajor_inj (C i j r c : ℕ) (hi : 1 ≤ i) (hr : 1 ≤ r)
    (hj : 1 ≤ j) (hjC : j ≤ C) (hc : 1 ≤ c) (hcC : c ≤ C)
    (h : (i - 1) * C + (j - 1) = (r - 1) * C + (c - 1)) : i = r ∧ j = c := by
  have key : ∀ a b a' b' : ℕ, b < C → b' < C → a * C + b = a' * C + b' → a = a' := by
    intro a b a' b' hb hb' hab
    by_contra hne
    rcases Nat.lt_or_ge a a' with hlt | hge
    · have h1 : a * C + b < (a + 1) * C := by
        have := Nat.add_lt_add_left hb (a * C); simpa [Nat.succ_mul] using this
      have h2 : (a + 1) * C ≤ a' * C := Nat.mul_le_mul_right C hlt
      omega
    · have hlt' : a' < a := by omega
      have h1 : a' * C + b' < (a' + 1) * C := by
        have := Nat.add_lt_add_left hb' (a' * C); simpa [Nat.succ_mul] using this
      have h2 : (a' + 1) * C ≤ a * C := Nat.mul_le_mul_right C hlt'
      omega
  have hC : 0 < C := by omega
  have hir : i - 1 = r - 1 := key (i - 1) (j - 1) (r - 1) (c - 1) (by omega) (by omega) h
  have : j - 1 = c - 1 := by
    have := hir ▸ h; omega
  omega

/-- An in-range 1-based coordinate lands inside a `R * C` buffer. -/
theorem accessIndex_lt (R C row col : ℕ) (h1 : 1 ≤ row) (h2 : row ≤ R)
    (h3 : 1 ≤ col) (h4 : col ≤ C) : accessIndex C row col < R * C := by
  have hC : 0 < C := by omega
  have hlt : (row - 1) * C + (col - 1) < row * C := by
    have : (row - 1) * C + C = row * C := by
      have : (row - 1) + 1 = row := by omega
      calc (row - 1) * C + C = ((row - 1) + 1) * C := by rw [Nat.succ_mul]
        _ = row * C := by rw [this]
    omega
  calc accessIndex C row col < row * C := hlt
    _ ≤ R * C := Nat.mul_le_mul_right C h2

/-! ## Behaviour of `fillf` and `copyRow` -/

theorem fillf_length {σ : Type} (g : σ → ℚ × σ) (buf : List ℚ) (s : σ) :
    (fillf g buf s).1.length = buf.length := by
  induction buf generalizing s with
  | nil => rfl
  | cons x rest ih => simp [fillf, ih]

theorem fillf_state {σ : Type} (g : σ → ℚ × σ) (buf : List ℚ) (s : σ) :
    (fillf g buf s).2 = genState g s buf.length := by
  induction buf generalizing s with
  | nil => rfl
  | cons x rest ih =>
      simp only [fillf, List.length_cons, ih, genState]
      rw [Function.iterate_succ_apply]

theorem fillf_getD {σ : Type} (g : σ → ℚ × σ) (buf : List ℚ) (s : σ)
    (k : ℕ) (d : ℚ) (hk : k < buf.length) :
    (fillf g buf s).1.getD k d = genValue g s k := by
  induction buf generalizing s k with
  | nil => simp at hk
  | cons x rest ih =>
      cases k with
      | zero => rfl
      | succ k' =>
          have : (fillf g (x :: rest) s).1.getD (k' + 1) d
              = (fillf g rest (g s).2).1.getD k' d := rfl
          rw [this, ih _ k' (by simpa using hk)]
          simp only [genValue, genState]
          rw [← Function.iterate_succ_apply]

theorem copyRow_length (il : List ℚ) (buf : List ℚ) (off : ℕ) :
    (copyRow buf off il).length = buf.length := by
  induction il generalizing buf off with
  | nil => rfl
  | cons v rest ih => simp [copyRow, ih]

theorem copyRow_getD_lt (il : List ℚ) (buf : List ℚ) (off t : ℕ) (d : ℚ)
    (h : t < off) : (copyRow buf off il).getD t d = buf.getD t d := by
  induction il generalizing buf off with
  | nil => rfl
  | cons v rest ih =>
      rw [copyRow, ih _ _ (by omega), getD_set_ne _ _ _ _ _ (by omega)]

theorem copyRow_getD_ge (il : List ℚ) (buf : List ℚ) (off t : ℕ) (d : ℚ)
    (h : off + il.length ≤ t) :
    (copyRow buf off il).getD t d = buf.getD t d := by
  induction il generalizing buf off with
  | nil => rfl
  | cons v rest ih =>
      simp only [List.length_cons] at h
      rw [copyRow, ih _ _ (by omega), getD_set_ne _ _ _ _ _ (by omega)]

theorem copyRow_getD_hit (il : List ℚ) (buf : List ℚ) (off t : ℕ)
    (ht : t < il.length) (hlen : off + il.length ≤ buf.length) :
    (copyRow buf off il).getD (off + t) 0 = il.getD t 0 := by
  induction il generalizing buf off t with
  | nil => simp at ht
  | cons v rest ih =>
      cases t with
      | zero =>
          rw [copyRow, copyRow_getD_lt _ _ _ _ _ (by omega)]
          simpa using getD_set_eq buf off v 0 (by simp at hlen; omega)
      | succ t' =>
          rw [copyRow, show off + (t' + 1) = (off + 1) + t' by omega,
            ih _ _ _ (by simpa using ht) (by simp at hlen ⊢; omega)]
          rfl

/-! ## Behaviour of the row-copying constructor loop -/

theorem rowsFold_length (C : ℕ) (l : List (List ℚ)) (buf : List ℚ) (r0 : ℕ) :
    ((l.foldl (fun (p : List ℚ × ℕ) il => (copyRow p.1 (p.2 * C) il, p.2 + 1))
      (buf, r0)).1).length = buf.length := by
  induction l generalizing buf r0 with
  | nil => rfl
  | cons il rest ih => simp [List.foldl_cons, ih, copyRow_length]

theorem rowsFold_getD_lt (C : ℕ) (l : List (List ℚ)) (buf : List ℚ) (r0 t : ℕ)
    (d : ℚ) (h : t < r0 * C) :
    ((l.foldl (fun (p : List ℚ × ℕ) il => (copyRow p.1 (p.2 * C) il, p.2 + 1))
      (buf, r0)).1).getD t d = buf.getD t d := by
  induction l generalizing buf r0 with
  | nil => rfl
  | cons il rest ih =>
      rw [List.foldl_cons]
      have hlt : t < (r0 + 1) * C := by
        calc t < r0 * C := h
          _ ≤ (r0 + 1) * C := Nat.mul_le_mul_right C (by omega)
      rw [ih _ _ hlt, copyRow_getD_lt _ _ _ _ _ h]

theorem rowsFold_read (C : ℕ) (l : List (List ℚ)) (buf : List ℚ) (r0 k c : ℕ)
    (hil : ∀ il ∈ l, il.length = C) (hlen : (r0 + l.length) * C ≤ buf.length)
    (hk : k < l.length) (hc : c < C) :
    ((l.foldl (fun (p : List ℚ × ℕ) il => (copyRow p.1 (p.2 * C) il, p.2 + 1))
      (buf, r0)).1).getD ((r0 + k) * C + c) 0 = (l.getD k []).getD c 0 := by
  induction l generalizing buf r0 k with
  | nil => simp at hk
  | cons il rest ih =>
      have hcount : (r0 + (il :: rest).length) * C = (r0 + 1 + rest.length) * C := by
        rw [List.length_cons]; ring_nf
      have hsplit : (r0 + 1) * C = r0 * C + C := by ring
      have hstep : (r0 + 1 + rest.length) * C = (r0 + 1) * C + rest.length * C := by
        ring
      rw [List.foldl_cons]
      cases k with
      | zero =>
          have hC : il.length = C := hil il (List.mem_cons_self il rest)
          have h1 : (r0 + 1) * C ≤ buf.length := by
            rw [hcount, hstep] at hlen; omega
          have hlt : (r0 + 0) * C + c < (r0 + 1) * C := by
            simp only [Nat.add_zero]; omega
          rw [rowsFold_getD_lt _ _ _ _ _ _ hlt]
          have hhit := copyRow_getD_hit il buf (r0 * C) c (by omega) (by omega)
          rw [show (r0 + 0) * C + c = r0 * C + c by rw [Nat.add_zero]]
          rw [hhit]
          rfl
      | succ k' =>
          have hlen' : ((r0 + 1) + rest.length) * C ≤ (copyRow buf (r0 * C) il).length := by
            rw [copyRow_length, ← hcount]; exact hlen
          have hrec := ih (copyRow buf (r0 * C) il) (r0 + 1) k'
            (fun x hx => hil x (List.mem_cons_of_mem il hx)) hlen'
            (by simpa using hk)
          rw [show (r0 + (k' + 1)) * C + c = ((r0 + 1) + k') * C + c by ring_nf]
          exact hrec

theorem mem_coordPairs (R C : ℕ) (p : ℕ × ℕ) :
    p ∈ coordPairs R C ↔ (1 ≤ p.1 ∧ p.1 ≤ R) ∧ 1 ≤ p.2 ∧ p.2 ≤ C := by
  cases p with
  | mk i j =>
      simp only [coordPairs, List.mem_flatMap, List.mem_map, List.mem_range'_1]
      constructor
      · rintro ⟨a, ⟨ha1, ha2⟩, b, ⟨hb1, hb2⟩, h⟩
        cases h
        exact ⟨⟨ha1, by omega⟩, hb1, by omega⟩
      · rintro ⟨⟨h1, h2⟩, h3, h4⟩
        exact ⟨i, ⟨h1, by omega⟩, j, ⟨h3, by omega⟩, rfl⟩

theorem matrixFromExpr_eq_flat (R C : ℕ) (e : ℕ → ℕ → ℚ) :
    matrixFromExpr R C e = (coordPairs R C).foldl
      (fun b p => b.set ((p.1 - 1) * C + (p.2 - 1)) (e p.1 p.2))
      (defaultMatrix R C) := by
  rw [coordPairs, foldl_flatten]
  simp only [List.foldl_map]
  rfl

theorem matrixFromExpr_length (R C : ℕ) (e : ℕ → ℕ → ℚ) :
    (matrixFromExpr R C e).length = R * C := by
  rw [matrixFromExpr_eq_flat]
  rw [foldl_set_length (coordPairs R C) (fun p => (p.1 - 1) * C + (p.2 - 1))
    (fun p => e p.1 p.2) (defaultMatrix R C)]
  simp [defaultMatrix]

theorem matrixFromExpr_read (R C : ℕ) (e : ℕ → ℕ → ℚ) (row col : ℕ)
    (h1 : 1 ≤ row) (h2 : row ≤ R) (h3 : 1 ≤ col) (h4 : col ≤ C) :
    readEntry C (matrixFromExpr R C e) row col = e row col := by
  rw [matrixFromExpr_eq_flat, readEntry]
  apply foldl_set_getD_mem (coordPairs R C) (fun p => (p.1 - 1) * C + (p.2 - 1))
    (fun p => e p.1 p.2) (accessIndex C row col) (e row col) 0
  · simpa [defaultMatrix] using accessIndex_lt R C row col h1 h2 h3 h4
  · intro p hp hidx
    rcases (mem_coordPairs R C p).mp hp with ⟨⟨hp1, hp2⟩, hp3, hp4⟩
    rcases rowMajor_inj C p.1 p.2 row col hp1 h1 hp3 hp4 h3 h4 hidx with ⟨hr, hc⟩
    rw [hr, hc]
  · exact ⟨(row, col), (mem_coordPairs R C (row, col)).mpr ⟨⟨h1, h2⟩, h3, h4⟩, rfl⟩


theorem sumL_shift (n : ℕ) (f : ℕ → ℚ) :
    sumL 0 n f = sumL 1 n (fun k => f (k - 1)) := by
  induction n with
  | zero => rfl
  | succ m ih => rw [sumL_succ, sumL_succ, ih]; simp

/-- C3: the bounds check of `Matrix::operator()` is off by one.  For a
2×2 matrix, the accesses `(Rows+1, 1) = (3, 1)` and `(1, Cols+1) = (1, 3)`
pass the source's check `row > R + 1 || col > C + 1` (no `OutOfRange` is
thrown, contradicting the claim), and `(3, 1)` then reads buffer index 4
of a 4-element buffer — past the end.  The lower bound is not checked
either (`(0, 1)` passes).  The last valid index `(2, 2)` does succeed and
returns the stored element. -/
theorem claim_C3_bounds_check_off_by_one :
    accessThrows 2 2 3 1 = false ∧
    accessThrows 2 2 1 3 = false ∧
    accessThrows 2 2 0 1 = false ∧
    accessIndex 2 3 1 = 4 ∧ (defaultMatrix 2 2).length = 4 ∧
    accessThrows 2 2 2 2 = false ∧
    readEntry 2 [1, 2, 3, 4] 2 2 = 4 := by
  refine ⟨rfl, rfl, rfl, rfl, by simp [defaultMatrix], rfl, ?_⟩
  norm_num [readEntry, accessIndex]

/-- C4: materialising an expression node `e` into a `Rows×Cols` matrix
stores `e(row, col)` at every 1-based coordinate `(row, col)`, so reading
the constructed matrix back through `operator()` yields exactly
`e(row, col)` (the `static_cast<Scalar>` is the identity here since the
expression already evaluates in the matrix's scalar type). -/
theorem claim_C4_materialisation (R C : ℕ) (e : ℕ → ℕ → ℚ) (row col : ℕ)
    (h1 : 1 ≤ row) (h2 : row ≤ R) (h3 : 1 ≤ col) (h4 : col ≤ C) :
    readEntry C (matrixFromExpr R C e) row col = e row col :=
  matrixFromExpr_read R C e row col h1 h2 h3 h4

theorem claim_C4_witness :
    readEntry 2 (matrixFromExpr 2 2 (fun i j => (10 * i + j : ℚ))) 2 2 = 22 := by
  rw [claim_C4_materialisation 2 2 _ 2 2 (by norm_num) (by norm_num)
    (by norm_num) (by norm_num)]
  norm_num

/-- C5: the multiplication node's `(row, col)` evaluation is the dot
product over the shared inner dimension `C1`: in the library's public
1-based indexing, `(lhs * rhs)(row, col) = Σ_{k=1}^{C1} lhs(row,k) * rhs(k,col)`
for every `(row, col)` in `[1,R1] × [1,C2]` — true matrix-multiply
semantics, not element-wise. -/
theorem claim_C5_multiplication_dot_product (lhs rhs : ℕ → ℕ → ℚ)
    (R1 C1 C2 row col : ℕ) (_h1 : 1 ≤ row) (_h2 : row ≤ R1)
    (_h3 : 1 ≤ col) (_h4 : col ≤ C2) :
    oneBasedView (mmulNode lhs rhs C1) row col
      = ∑ k in Finset.Icc 1 C1, oneBasedView lhs row k * oneBasedView rhs k col := by
  rw [← sumL_eq_sum_Icc]
  show ((List.range C1).map
    (fun i => lhs (row - 1) i * rhs i (col - 1))).sum = _
  rw [List.range_eq_range']
  show sumL 0 C1 (fun i => lhs (row - 1) i * rhs i (col - 1)) = _
  rw [sumL_shift]
  rfl

theorem claim_C5_witness :
    oneBasedView (mmulNode (fun r c => (r + 2 * c : ℚ))
        (fun r c => (r * c + 1 : ℚ)) 2) 1 1
      = ∑ k in Finset.Icc 1 2,
          oneBasedView (fun r c => (r + 2 * c : ℚ)) 1 k
            * oneBasedView (fun r c => (r * c + 1 : ℚ)) k 1 :=
  claim_C5_multiplication_dot_product _ _ 1 2 1 1 1 (le_refl 1) (le_refl 1)
    (le_refl 1) (le_refl 1)

/-- C6: the less-than node does not implement strict `<`.  On operands
whose `(1,1)` entries are both `1` it evaluates to `1` although
`1 < 1` is false (the claim requires `0`); the source's body compares
with `<=`.  On strictly ordered entries it behaves as expected. -/
theorem claim_C6_lt_node_is_leq :
    ltNode (fun _ _ => 1) (fun _ _ => 1) 1 1 = 1 ∧ ¬ ((1 : ℚ) < 1) ∧
    ltNode (fun _ _ => 1) (fun _ _ => 2) 1 1 = 1 ∧
    ltNode (fun _ _ => 2) (fun _ _ => 1) 1 1 = 0 := by
  refine ⟨by norm_num [ltNode], by norm_num, by norm_num [ltNode], by norm_num [ltNode]⟩

/-- C7 counterexample: the nested-list constructor checks only the FIRST
inner list's length.  For a 2×2 matrix the list `{{1,2},{3}}` has an
inner list of length 1 ≠ Cols, yet construction succeeds (no
`ShapeMismatch`), quietly leaving the last element zero. -/
theorem claim_C7_counterexample :
    matrixFromList 2 2 [[1, 2], [3]] = Except.ok [1, 2, 3, 0] ∧
    (([3] : List ℚ) ∈ ([[1, 2], [3]] : List (List ℚ)) ∧
      ([3] : List ℚ).length ≠ 2) := by
  refine ⟨?_, by simp, by simp⟩
  rfl

/-- C7 (amended): construction fails with `ShapeMismatch` iff the outer
list length differs from `Rows` or the FIRST inner list's length differs
from `Cols`; when construction succeeds and moreover every inner list
has length `Cols`, reading back via `(row, col)` returns exactly the
literal values in row-major correspondence. -/
theorem claim_C7_list_ctor_amended (R C : ℕ) (l : List (List ℚ)) :
    (matrixFromList R C l = Except.error ()
      ↔ l.length ≠ R ∨ (l.headD []).length ≠ C)
    ∧ (∀ buf row col, matrixFromList R C l = Except.ok buf →
        (∀ il ∈ l, il.length = C) → 1 ≤ row → row ≤ R → 1 ≤ col → col ≤ C →
        readEntry C buf row col = (l.getD (row - 1) []).getD (col - 1) 0) := by
  constructor
  · unfold matrixFromList
    split_ifs with h
    · simpa using h
    · simpa using h
  · intro buf row col hok hil h1 h2 h3 h4
    unfold matrixFromList at hok
    split_ifs at hok with h
    push_neg at h
    have hbuf : buf = ((l.foldl
        (fun (p : List ℚ × ℕ) il => (copyRow p.1 (p.2 * C) il, p.2 + 1))
        (defaultMatrix R C, 0)).1) := by
      cases hok; rfl
    subst hbuf
    have hR : l.length = R := h.1
    have hread := rowsFold_read C l (defaultMatrix R C) 0 (row - 1) (col - 1)
      hil (by simp [defaultMatrix, hR]) (by omega) (by omega)
    simpa [readEntry, accessIndex] using hread

theorem claim_C7_witness :
    matrixFromList 2 2 [[1, 2], [3, 4]] = Except.ok [1, 2, 3, 4] ∧
    readEntry 2 [1, 2, 3, 4] 2 1 = 3 := by
  constructor
  · rfl
  · have := (claim_C7_list_ctor_amended 2 2 [[1, 2], [3, 4]]).2 [1, 2, 3, 4] 2 1
      rfl (by simp) (by norm_num) (by norm_num) (by norm_num) (by norm_num)
    simpa using this

theorem counter_genState (s k : ℕ) : genState counterGen s k = s + k := by
  induction k with
  | zero => rfl
  | succ m ih =>
      rw [genState, Function.iterate_succ_apply', ← genState, ih]
      rfl

/-- C8: `fillf(generator)` calls the zero-argument generator exactly once
per element — `Rows*Cols` calls in total, witnessed by the generator
state having advanced `Rows*Cols` steps — in row-major buffer order,
assigning the `k`-th call's result to the `k`-th buffer cell; hence for
the stateful counter generator producing `1, 2, 3, …`, the element read
back at `(row, col)` equals `(row-1)*Cols + col`. -/
theorem claim_C8_fillf_row_major (R C : ℕ) (σ : Type) (g : σ → ℚ × σ) (s : σ)
    (buf : List ℚ) (row col : ℕ) :
    (fillf g buf s).1.length = buf.length
    ∧ (fillf g buf s).2 = genState g s buf.length
    ∧ (∀ k, k < buf.length → (fillf g buf s).1.getD k 0 = genValue g s k)
    ∧ (buf.length = R * C → 1 ≤ row → row ≤ R → 1 ≤ col → col ≤ C →
        readEntry C (fillf counterGen buf 1).1 row col
          = (((row - 1) * C + col : ℕ) : ℚ)) := by
  refine ⟨fillf_length g buf s, fillf_state g buf s,
    fun k hk => fillf_getD g buf s k 0 hk, ?_⟩
  intro hbc h1 h2 h3 h4
  rw [readEntry, fillf_getD counterGen buf 1 _ 0
    (by rw [hbc]; exact accessIndex_lt R C row col h1 h2 h3 h4)]
  rw [genValue, counter_genState]
  show ((1 + accessIndex C row col : ℕ) : ℚ) = _
  norm_cast
  unfold accessIndex
  omega

theorem claim_C8_witness :
    readEntry 2 (fillf counterGen [0, 0] 1).1 1 2 = 2 := by
  have := (claim_C8_fillf_row_major 1 2 ℕ counterGen 1 [0, 0] 1 2).2.2.2
    (by norm_num) (by norm_num) (by norm_num) (by norm_num) (by norm_num)
  simpa using this

/-- C9 counterexample: a `Matrix<Scalar, 0, 0>` is empty straight from
its default constructor, with no `reset()` ever called — refuting both
"every constructor produces a matrix with `is_empty()` false" and
"`is_empty()` returns true only after `reset()`" in the degenerate case
`Rows*Cols = 0`. -/
theorem claim_C9_counterexample : matIsEmpty (defaultMatrix 0 0) = true :=
  rfl

theorem zerosOp_length (buf : List ℚ) : (zerosOp buf).length = buf.length := by
  simp [zerosOp]

theorem onesOp_length (buf : List ℚ) : (onesOp buf).length = buf.length := by
  simp [onesOp]

theorem fillOp_length (v : ℚ) (buf : List ℚ) :
    (fillOp v buf).length = buf.length := by
  simp [fillOp]

theorem eyeOp_length (R C : ℕ) (buf : List ℚ) :
    (eyeOp R C buf).length = buf.length := by
  unfold eyeOp
  split_ifs with h
  · have := foldl_set_length (List.range R) (fun i => i * C + i)
      (fun _ => (1 : ℚ)) (buf.map fun _ => 0)
    simpa using this
  · rfl

theorem randOp_length (vals : ℕ → ℚ) (buf : List ℚ) :
    (randOp vals buf).length = buf.length := by
  unfold randOp
  exact fillf_length _ buf 0

theorem fillfOp_length (g : ℕ → ℚ × ℕ) (s : ℕ) (buf : List ℚ) :
    (fillfOp g s buf).length = buf.length := by
  unfold fillfOp
  exact fillf_length g buf s

theorem setEntryOp_length (R C row col : ℕ) (v : ℚ) (buf : List ℚ) :
    (setEntryOp R C row col v buf).length = buf.length := by
  unfold setEntryOp
  split_ifs with h
  · rfl
  · exact List.length_set buf _ _

theorem applyOp_length (R C : ℕ) (op : MatOp) (buf : List ℚ) :
    (applyOp R C op buf).length = buf.length := by
  cases op with
  | zerosO => exact zerosOp_length buf
  | onesO => exact onesOp_length buf
  | eyeO => exact eyeOp_length R C buf
  | fillO v => exact fillOp_length v buf
  | fillfO g s => exact fillfOp_length g s buf
  | randO vals => exact randOp_length vals buf
  | setO row col v => exact setEntryOp_length R C row col v buf

theorem applyOps_length (R C : ℕ) (ops : List MatOp) (buf : List ℚ) :
    (applyOps R C ops buf).length = buf.length := by
  induction ops generalizing buf with
  | nil => rfl
  | cons op rest ih =>
      show (applyOps R C rest (applyOp R C op buf)).length = buf.length
      rw [ih, applyOp_length]

/-- C9 (amended, restricted to `0 < Rows*Cols`): every constructor
produces a backing buffer of exactly `Rows*Cols` scalars; no
fill/element-assignment/bulk-mutation operation changes the buffer's
length; `reset()` empties the buffer; and starting from any
constructor-produced buffer, `is_empty()` stays false under any sequence
of non-`reset` mutations, so it can be true only after a `reset()`. -/
theorem claim_C9_buffer_invariant_amended (R C : ℕ) :
    (defaultMatrix R C).length = R * C
    ∧ (∀ e, (matrixFromExpr R C e).length = R * C)
    ∧ (∀ v buf, vectorCtor R C v = Except.ok buf → buf.length = R * C)
    ∧ (∀ l buf, matrixFromList R C l = Except.ok buf → buf.length = R * C)
    ∧ (∀ ft vals buf, fillCtor R C ft vals = Except.ok buf → buf.length = R * C)
    ∧ (∀ op buf, (applyOp R C op buf).length = buf.length)
    ∧ (∀ buf, matIsEmpty (resetOp buf) = true)
    ∧ (0 < R * C → ∀ buf : List ℚ, buf.length = R * C →
        ∀ ops : List MatOp, matIsEmpty (applyOps R C ops buf) = false) := by
  refine ⟨by simp [defaultMatrix], fun e => matrixFromExpr_length R C e,
    ?_, ?_, ?_, applyOp_length R C, fun buf => rfl, ?_⟩
  · intro v buf hok
    unfold vectorCtor at hok
    split_ifs at hok with h
    cases hok
    omega
  · intro l buf hok
    unfold matrixFromList at hok
    split_ifs at hok with h
    cases hok
    rw [rowsFold_length]
    simp [defaultMatrix]
  · intro ft vals buf hok
    cases ft with
    | zeros => cases hok; simp [zerosOp_length, defaultMatrix]
    | ones => cases hok; simp [onesOp_length, defaultMatrix]
    | eye =>
        unfold fillCtor at hok
        split_ifs at hok with h
        cases hok
        simp [eyeOp_length, defaultMatrix]
    | rand => cases hok; simp [randOp_length, defaultMatrix]
    | none => cases hok; simp [defaultMatrix]
  · intro hpos buf hlen ops
    have h : (applyOps R C ops buf).length = R * C := by
      rw [applyOps_length, hlen]
    have hne : (applyOps R C ops buf).length ≠ 0 := by omega
    cases hx : applyOps R C ops buf with
    | nil => rw [hx] at hne; simp at hne
    | cons a rest => rfl

theorem claim_C9_witness :
    matIsEmpty (applyOps 1 1 [MatOp.zerosO] [5]) = false :=
  (claim_C9_buffer_invariant_amended 1 1).2.2.2.2.2.2.2 (by norm_num) [5]
    (by norm_num) [MatOp.zerosO]

theorem foldU_A (j : ℕ) (l : List ℕ) (st : LUState) :
    (l.foldl (fun t i => { t with U := upd2 t.U j i (computeU t j i) }) st).A
      = st.A := by
  induction l generalizing st with
  | nil => rfl
  | cons a rest ih => rw [List.foldl_cons, ih]

theorem foldU_L (j : ℕ) (l : List ℕ) (st : LUState) :
    (l.foldl (fun t i => { t with U := upd2 t.U j i (computeU t j i) }) st).L
      = st.L := by
  induction l generalizing st with
  | nil => rfl
  | cons a rest ih => rw [List.foldl_cons, ih]

theorem foldL_A (j : ℕ) (l : List ℕ) (st : LUState) :
    (l.foldl (fun t i => { t with L := upd2 t.L i j (computeL t i j) }) st).A
      = st.A := by
  induction l generalizing st with
  | nil => rfl
  | cons a rest ih => rw [List.foldl_cons, ih]

theorem foldL_U (j : ℕ) (l : List ℕ) (st : LUState) :
    (l.foldl (fun t i => { t with L := upd2 t.L i j (computeL t i j) }) st).U
      = st.U := by
  induction l generalizing st with
  | nil => rfl
  | cons a rest ih => rw [List.foldl_cons, ih]

theorem stepUrow_A (N j : ℕ) (st : LUState) : (stepUrow N j st).A = st.A :=
  foldU_A j _ st

theorem stepUrow_L (N j : ℕ) (st : LUState) : (stepUrow N j st).L = st.L :=
  foldU_L j _ st

theorem stepLcol_A (N j : ℕ) (st : LUState) : (stepLcol N j st).A = st.A :=
  foldL_A j _ st

theorem stepLcol_U (N j : ℕ) (st : LUState) : (stepLcol N j st).U = st.U :=
  foldL_U j _ st

theorem foldCols_A (N : ℕ) (l : List ℕ) (st : LUState) :
    (l.foldl (fun t j => stepLcol N j (stepUrow N j t)) st).A = st.A := by
  induction l generalizing st with
  | nil => rfl
  | cons a rest ih => rw [List.foldl_cons, ih, stepLcol_A, stepUrow_A]

theorem LU_doolittle_A (N : ℕ) (st : LUState) :
    (LU_doolittle N st).A = st.A := by
  unfold LU_doolittle
  rw [foldCols_A]

theorem jacobiLoop_A (R : ℕ) (tol : ℚ) (m : ℕ) (st : JacobiState) (xs : ℕ → ℚ) :
    (jacobiLoop R tol m st xs).1.A = st.A := by
  induction m generalizing st xs with
  | zero => rfl
  | succ k ih =>
      rw [jacobiLoop]
      split_ifs with h
      · rfl
      · rw [ih]

theorem jacobiLoop_b (R : ℕ) (tol : ℚ) (m : ℕ) (st : JacobiState) (xs : ℕ → ℚ) :
    (jacobiLoop R tol m st xs).1.b = st.b := by
  induction m generalizing st xs with
  | zero => rfl
  | succ k ih =>
      rw [jacobiLoop]
      split_ifs with h
      · rfl
      · rw [ih]

/-- C10: the solvers read but never write their coefficient data.
`LU_doolittle(A, L, U)` leaves `A` unchanged (only `L` and `U` are
written), and `solve_jacobi_element(x, A, b, …)` leaves both `A` and the
mutably-passed `b` unchanged (only `x` is written): every assignment in
both loop nests targets `L`/`U` resp. `x`/`x_scratch`, and the threaded
state's `A`/`b` components come out equal to the inputs. -/
theorem claim_C10_solver_frame (N R maxIter : ℕ) (tol : ℚ)
    (lu : LUState) (js : JacobiState) :
    (LU_doolittle N lu).A = lu.A
    ∧ (solve_jacobi_element R maxIter tol js).1.A = js.A
    ∧ (solve_jacobi_element R maxIter tol js).1.b = js.b :=
  ⟨LU_doolittle_A N lu,
    jacobiLoop_A R tol maxIter _ _,
    jacobiLoop_b R tol maxIter _ _⟩

theorem foldl_upd1 (l : List ℕ) (v : ℕ → ℚ) (f : ℕ → ℚ) (k : ℕ) :
    (l.foldl (fun s i => upd1 s i (v i)) f) k = if k ∈ l then v k else f k := by
  induction l generalizing f with
  | nil => simp
  | cons a rest ih =>
      rw [List.foldl_cons, ih]
      by_cases hk : k ∈ rest
      · simp [hk]
      · by_cases hka : k = a
        · subst hka
          simp [hk, upd1]
        · simp [hk, hka, upd1]

theorem scratchFold_apply (R : ℕ) (A : ℕ → ℕ → ℚ) (b x xs : ℕ → ℚ) (i : ℕ) :
    scratchFold R A b x xs i
      = if 1 ≤ i ∧ i ≤ R then computeXs R A b x i else xs i := by
  unfold scratchFold
  rw [foldl_upd1]
  by_cases h : 1 ≤ i ∧ i ≤ R
  · rw [if_pos (by simp [List.mem_range'_1]; omega), if_pos h]
  · rw [if_neg (by simp [List.mem_range'_1]; omega), if_neg h]

theorem computeXs_congr (R : ℕ) (A : ℕ → ℕ → ℚ) (b : ℕ → ℚ) (x y : ℕ → ℚ)
    (h : inRangeEq R x y) (i : ℕ) :
    computeXs R A b x i = computeXs R A b y i := by
  unfold computeXs
  have hsum : sumL 1 R (fun j => if j ≠ i then A i j * x j else 0)
      = sumL 1 R (fun j => if j ≠ i then A i j * y j else 0) := by
    apply sumL_congr
    intro k hk1 hk2
    by_cases hki : k ≠ i
    · simp only [hki, if_true, h k hk1 (by omega)]
    · simp [hki]
  rw [hsum]

theorem jacobi_step_lemma (R : ℕ) (A : ℕ → ℕ → ℚ) (b : ℕ → ℚ) (m0 : ℕ)
    (x xs : ℕ → ℚ) (hx : inRangeEq R x (jacobiSeq R A b m0)) :
    inRangeEq R (scratchFold R A b x xs) (jacobiSeq R A b (m0 + 1))
    ∧ errOf R x (scratchFold R A b x xs) = errAt R A b m0 := by
  have hseq : ∀ i, jacobiSeq R A b (m0 + 1) i
      = computeXs R A b (jacobiSeq R A b m0) i := by
    intro i
    rw [jacobiSeq, Function.iterate_succ_apply']
    rfl
  have hscr : inRangeEq R (scratchFold R A b x xs) (jacobiSeq R A b (m0 + 1)) := by
    intro i hi1 hi2
    rw [scratchFold_apply, if_pos ⟨hi1, hi2⟩, hseq i]
    exact computeXs_congr R A b x (jacobiSeq R A b m0) hx i
  refine ⟨hscr, ?_⟩
  rw [errOf, errAt, ← sumL_eq_sum_Icc]
  apply sumL_congr
  intro k hk1 hk2
  rw [hscr k hk1 (by omega), hx k hk1 (by omega)]

theorem jacobiLoop_conv (R : ℕ) (tol : ℚ) :
    ∀ (m t m0 : ℕ) (st : JacobiState) (xs : ℕ → ℚ),
    inRangeEq R st.x (jacobiSeq R st.A st.b m0) →
    t < m → errAt R st.A st.b (m0 + t) < tol →
    (∀ u, u < t → ¬ errAt R st.A st.b (m0 + u) < tol) →
    (jacobiLoop R tol m st xs).2 = true
      ∧ inRangeEq R (jacobiLoop R tol m st xs).1.x
          (jacobiSeq R st.A st.b (m0 + t + 1)) := by
  intro m
  induction m with
  | zero => intro t m0 st xs _ ht; omega
  | succ k ih =>
      intro t m0 st xs hx ht herr hfirst
      have hstep := jacobi_step_lemma R st.A st.b m0 st.x xs hx
      rw [jacobiLoop]
      cases t with
      | zero =>
          rw [if_pos (by rw [hstep.2]; simpa using herr)]
          exact ⟨rfl, by simpa using hstep.1⟩
      | succ u =>
          rw [if_neg (by rw [hstep.2]; simpa using hfirst 0 (by omega))]
          have hrec := ih u (m0 + 1) { st with x := scratchFold R st.A st.b st.x xs }
            (scratchFold R st.A st.b st.x xs) hstep.1 (by omega)
            (by rw [show m0 + 1 + u = m0 + (u + 1) by omega]; exact herr)
            (fun v hv => by
              rw [show m0 + 1 + v = m0 + (v + 1) by omega]
              exact hfirst (v + 1) (by omega))
          rw [show m0 + (u + 1) + 1 = m0 + 1 + u + 1 by omega]
          exact hrec

theorem jacobiLoop_noconv (R : ℕ) (tol : ℚ) :
    ∀ (m m0 : ℕ) (st : JacobiState) (xs : ℕ → ℚ),
    inRangeEq R st.x (jacobiSeq R st.A st.b m0) →
    (∀ u, u < m → ¬ errAt R st.A st.b (m0 + u) < tol) →
    (jacobiLoop R tol m st xs).2 = false
      ∧ inRangeEq R (jacobiLoop R tol m st xs).1.x
          (jacobiSeq R st.A st.b (m0 + m)) := by
  intro m
  induction m with
  | zero => intro m0 st xs hx _; exact ⟨rfl, by simpa using hx⟩
  | succ k ih =>
      intro m0 st xs hx hfail
      have hstep := jacobi_step_lemma R st.A st.b m0 st.x xs hx
      rw [jacobiLoop]
      rw [if_neg (by rw [hstep.2]; simpa using hfail 0 (by omega))]
      have hrec := ih (m0 + 1) { st with x := scratchFold R st.A st.b st.x xs }
        (scratchFold R st.A st.b st.x xs) hstep.1
        (fun v hv => by
          rw [show m0 + 1 + v = m0 + (v + 1) by omega]
          exact hfail (v + 1) (by omega))
      rw [show m0 + (k + 1) = m0 + 1 + k by omega]
      exact hrec

/-- C2: `solve_jacobi_element` (i) overwrites `x` with the all-ones
starting guess, ignoring its incoming value; (ii) each iteration computes
`x_scratch(i) = (b(i) - Σ_{j≠i} A(i,j) x(j)) / A(i,i)` for every row,
measures `err = Σ_i |x_scratch(i) - x(i)|`, and replaces `x` by
`x_scratch` unconditionally; (iii) it stops early reporting convergence
the first time `err < tol`, leaving `x` at the just-computed iterate;
(iv) otherwise it runs all `max_iterations` iterations, reports
non-convergence, and leaves `x` at the last computed iterate. -/
theorem claim_C2_solve_jacobi (R maxIter : ℕ) (tol : ℚ) (st : JacobiState)
    (_hdiag : ∀ i ∈ Finset.Icc 1 R, st.A i i ≠ 0) :
    (∀ x0, solve_jacobi_element R maxIter tol { st with x := x0 }
        = solve_jacobi_element R maxIter tol st)
    ∧ (∀ x i, pureStep R st.A st.b x i
        = (st.b i - ∑ j in Finset.Icc 1 R \ {i}, st.A i j * x j) / st.A i i)
    ∧ (∀ m, m < maxIter → errAt R st.A st.b m < tol →
        (∀ u, u < m → ¬ errAt R st.A st.b u < tol) →
        (solve_jacobi_element R maxIter tol st).2 = true
          ∧ inRangeEq R (solve_jacobi_element R maxIter tol st).1.x
              (jacobiSeq R st.A st.b (m + 1)))
    ∧ ((∀ m, m < maxIter → ¬ errAt R st.A st.b m < tol) →
        (solve_jacobi_element R maxIter tol st).2 = false
          ∧ inRangeEq R (solve_jacobi_element R maxIter tol st).1.x
              (jacobiSeq R st.A st.b maxIter)) := by
  refine ⟨fun x0 => rfl, ?_, ?_, ?_⟩
  · intro x i
    show computeXs R st.A st.b x i = _
    rw [computeXs, sumL_eq_sum_Icc]
    congr 2
    rw [← Finset.erase_eq, ← Finset.filter_ne']
    rw [Finset.sum_filter]
  · intro m hm herr hfirst
    have h := jacobiLoop_conv R tol maxIter m 0
      { st with x := fun _ => 1 } (fun _ => 0)
      (fun i _ _ => rfl) hm (by simpa using herr)
      (fun u hu => by simpa using hfirst u hu)
    exact ⟨h.1, by simpa using h.2⟩
  · intro hfail
    have h := jacobiLoop_noconv R tol maxIter 0
      { st with x := fun _ => 1 } (fun _ => 0)
      (fun i _ _ => rfl)
      (fun u hu => by simpa using hfail u hu)
    exact ⟨h.1, by simpa using h.2⟩

theorem errAt_jacobi0 : errAt 2 jacobiA0 jacobiB0 0 < 100 := by
  norm_num [errAt, Finset.sum_Icc_succ_top, jacobiSeq, pureStep, computeXs,
    jacobiA0, jacobiB0, sumL, List.range']
  rw [show |(1 : ℚ)/7| = 1/7 from abs_of_nonneg (by norm_num)]
  norm_num

theorem diag_jacobi0 : ∀ i ∈ Finset.Icc 1 2, jacobiA0 i i ≠ 0 := by
  intro i hi
  fin_cases hi <;> norm_num [jacobiA0]

theorem claim_C2_witness :
    (∀ i ∈ Finset.Icc 1 2, jacobiA0 i i ≠ 0)
    ∧ errAt 2 jacobiA0 jacobiB0 0 < 100
    ∧ (solve_jacobi_element 2 1 100 ⟨fun _ => 0, jacobiA0, jacobiB0⟩).2 = true := by
  refine ⟨diag_jacobi0, errAt_jacobi0, ?_⟩
  exact ((claim_C2_solve_jacobi 2 1 100 ⟨fun _ => 0, jacobiA0, jacobiB0⟩
    diag_jacobi0).2.2.1 0 (by omega) errAt_jacobi0 (by omega)).1

theorem sumL_zero_fun (a n : ℕ) : sumL a n (fun _ => (0 : ℚ)) = 0 := by
  simp [sumL]

theorem foldU_U (j : ℕ) (l : List ℕ) :
    ∀ (st t : LUState), t.A = st.A → t.L = st.L →
    (∀ r c, r ≠ j → t.U r c = st.U r c) → 1 ≤ j →
    ∀ r c, (l.foldl (fun t i => { t with U := upd2 t.U j i (computeU t j i) }) t).U r c
      = if r = j ∧ c ∈ l then computeU st j c else t.U r c := by
  induction l with
  | nil => intro st t hA hL hU hj r c; simp
  | cons a rest ih =>
      intro st t hA hL hU hj r c
      rw [List.foldl_cons]
      have hca : computeU t j a = computeU st j a := by
        unfold computeU
        rw [hA, hL]
        congr 1
        apply sumL_congr
        intro k hk1 hk2
        rw [hU k a (by omega)]
      have ht' : ∀ r c, r ≠ j →
          (upd2 t.U j a (computeU t j a)) r c = st.U r c := by
        intro r' c' hr'
        rw [upd2]
        rw [if_neg (by tauto)]
        exact hU r' c' hr'
      have hrec := ih st { t with U := upd2 t.U j a (computeU t j a) } hA hL ht' hj r c
      rw [hrec]
      by_cases hrj : r = j
      · by_cases hcr : c ∈ rest
        · rw [if_pos ⟨hrj, hcr⟩, if_pos ⟨hrj, List.mem_cons_of_mem a hcr⟩]
        · by_cases hcae : c = a
          · rw [if_neg (by tauto), if_pos ⟨hrj, by rw [hcae]; exact List.mem_cons_self a rest⟩]
            show upd2 t.U j a (computeU t j a) r c = _
            rw [upd2, if_pos ⟨hrj, hcae⟩, hca, hcae]
          · rw [if_neg (by tauto), if_neg (by simp [List.mem_cons]; tauto)]
            show upd2 t.U j a (computeU t j a) r c = _
            rw [upd2, if_neg (by tauto)]
      · rw [if_neg (by tauto), if_neg (by tauto)]
        show upd2 t.U j a (computeU t j a) r c = _
        rw [upd2, if_neg (by tauto)]

theorem foldL_L (j : ℕ) (l : List ℕ) :
    ∀ (st t : LUState), t.A = st.A → t.U = st.U →
    (∀ r c, c ≠ j → t.L r c = st.L r c) → 1 ≤ j →
    ∀ r c, (l.foldl (fun t i => { t with L := upd2 t.L i j (computeL t i j) }) t).L r c
      = if c = j ∧ r ∈ l then computeL st r j else t.L r c := by
  induction l with
  | nil => intro st t hA hU hL hj r c; simp
  | cons a rest ih =>
      intro st t hA hU hL hj r c
      rw [List.foldl_cons]
      have hca : computeL t a j = computeL st a j := by
        unfold computeL
        rw [hA, hU]
        congr 2
        apply sumL_congr
        intro k hk1 hk2
        rw [hL a k (by omega)]
      have ht' : ∀ r c, c ≠ j →
          (upd2 t.L a j (computeL t a j)) r c = st.L r c := by
        intro r' c' hc'
        rw [upd2, if_neg (by tauto)]
        exact hL r' c' hc'
      have hrec := ih st { t with L := upd2 t.L a j (computeL t a j) } hA hU ht' hj r c
      rw [hrec]
      by_cases hcj : c = j
      · by_cases hra : r ∈ rest
        · rw [if_pos ⟨hcj, hra⟩, if_pos ⟨hcj, List.mem_cons_of_mem a hra⟩]
        · by_cases hrae : r = a
          · rw [if_neg (by tauto), if_pos ⟨hcj, by rw [hrae]; exact List.mem_cons_self a rest⟩]
            show upd2 t.L a j (computeL t a j) r c = _
            rw [upd2, if_pos ⟨hrae, hcj⟩, hrae, hca]
          · rw [if_neg (by tauto), if_neg (by simp [List.mem_cons]; tauto)]
            show upd2 t.L a j (computeL t a j) r c = _
            rw [upd2, if_neg (by tauto)]
      · rw [if_neg (by tauto), if_neg (by tauto)]
        show upd2 t.L a j (computeL t a j) r c = _
        rw [upd2, if_neg (by tauto)]

theorem stepUrow_U (N j : ℕ) (st : LUState) (hj : 1 ≤ j) (hjN : j ≤ N) :
    ∀ r c, (stepUrow N j st).U r c
      = if r = j ∧ (j ≤ c ∧ c ≤ N) then computeU st j c else st.U r c := by
  intro r c
  have h := foldU_U j (List.range' j (N + 1 - j)) st st rfl rfl
    (fun _ _ _ => rfl) hj r c
  rw [stepUrow] at *
  rw [h]
  by_cases hc : j ≤ c ∧ c ≤ N
  · by_cases hr : r = j
    · rw [if_pos ⟨hr, by simp [List.mem_range'_1]; omega⟩, if_pos ⟨hr, hc⟩]
    · rw [if_neg (by tauto), if_neg (by tauto)]
  · rw [if_neg (by simp [List.mem_range'_1]; omega), if_neg (by tauto)]

theorem stepLcol_L (N j : ℕ) (st : LUState) (hj : 1 ≤ j) (hjN : j ≤ N) :
    ∀ r c, (stepLcol N j st).L r c
      = if c = j ∧ (j + 1 ≤ r ∧ r ≤ N) then computeL st r j else st.L r c := by
  intro r c
  have h := foldL_L j (List.range' (j + 1) (N - j)) st st rfl rfl
    (fun _ _ _ => rfl) hj r c
  rw [stepLcol] at *
  rw [h]
  by_cases hr : j + 1 ≤ r ∧ r ≤ N
  · by_cases hc : c = j
    · rw [if_pos ⟨hc, by simp [List.mem_range'_1]; omega⟩, if_pos ⟨hc, hr⟩]
    · rw [if_neg (by tauto), if_neg (by tauto)]
  · rw [if_neg (by simp [List.mem_range'_1]; omega), if_neg (by tauto)]

theorem LUInv_base (st : LUState) (N : ℕ) :
    LUInv st.A N 0
      { st with L := fun r c => if r = c then 1 else 0, U := fun _ _ => 0 } := by
  refine ⟨rfl, fun r => if_pos rfl, fun r c h => if_neg (by omega),
    fun c hc1 hc0 => by omega, fun c hc r hr => if_neg (by omega),
    fun r c h => rfl, fun r hr1 hr0 => by omega, fun r hr c => rfl⟩

theorem LUInv_step (N p : ℕ) (A0 : ℕ → ℕ → ℚ) (st : LUState) (hp : p < N)
    (inv : LUInv A0 N p st) :
    LUInv A0 N (p + 1) (stepLcol N (p + 1) (stepUrow N (p + 1) st)) := by
  have hA1 : (stepUrow N (p + 1) st).A = st.A := stepUrow_A N (p + 1) st
  have hL1 : (stepUrow N (p + 1) st).L = st.L := stepUrow_L N (p + 1) st
  have hU2 : (stepLcol N (p + 1) (stepUrow N (p + 1) st)).U
      = (stepUrow N (p + 1) st).U := stepLcol_U N (p + 1) _
  have hA2 : (stepLcol N (p + 1) (stepUrow N (p + 1) st)).A
      = (stepUrow N (p + 1) st).A := stepLcol_A N (p + 1) _
  have hU1 := stepUrow_U N (p + 1) st (by omega) (by omega)
  have eA : (stepLcol N (p + 1) (stepUrow N (p + 1) st)).A = st.A := by
    rw [hA2, hA1]
  have eU : ∀ r c, (stepLcol N (p + 1) (stepUrow N (p + 1) st)).U r c
      = if r = p + 1 ∧ (p + 1 ≤ c ∧ c ≤ N) then computeU st (p + 1) c
        else st.U r c := by
    intro r c
    rw [hU2]
    exact hU1 r c
  have eLnew : ∀ r, computeL (stepUrow N (p + 1) st) r (p + 1)
      = (st.A r (p + 1) - sumL 1 p (fun k => st.L r k * st.U k (p + 1)))
        / computeU st (p + 1) (p + 1) := by
    intro r
    unfold computeL
    rw [hA1, hL1, hU1 (p + 1) (p + 1), if_pos ⟨rfl, by omega, by omega⟩]
    have hs : sumL 1 (p + 1 - 1)
        (fun k => st.L r k * (stepUrow N (p + 1) st).U k (p + 1))
        = sumL 1 p (fun k => st.L r k * st.U k (p + 1)) := by
      show sumL 1 p _ = sumL 1 p _
      apply sumL_congr
      intro k hk1 hk2
      rw [hU1 k (p + 1), if_neg (by omega)]
    rw [hs]
  have eL : ∀ r c, (stepLcol N (p + 1) (stepUrow N (p + 1) st)).L r c
      = if c = p + 1 ∧ (p + 2 ≤ r ∧ r ≤ N)
        then (st.A r (p + 1) - sumL 1 p (fun k => st.L r k * st.U k (p + 1)))
          / computeU st (p + 1) (p + 1)
        else st.L r c := by
    intro r c
    rw [stepLcol_L N (p + 1) (stepUrow N (p + 1) st) (by omega) (by omega) r c,
      eLnew r, hL1]
  refine ⟨?_, ?_, ?_, ?_, ?_, ?_, ?_, ?_⟩
  · exact eA.trans inv.hA
  · intro r
    rw [eL r r, if_neg (by omega)]
    exact inv.hLdiag r
  · intro r c h
    rw [eL r c, if_neg (by omega)]
    exact inv.hLupper r c h
  · intro c hc1 hc2 r hr1 hr2
    have hs : sumL 1 (c - 1)
        (fun k => (stepLcol N (p + 1) (stepUrow N (p + 1) st)).L r k
          * (stepLcol N (p + 1) (stepUrow N (p + 1) st)).U k c)
        = sumL 1 (c - 1) (fun k => st.L r k * st.U k c) := by
      apply sumL_congr
      intro k hk1 hk2
      rw [eL r k, if_neg (by omega), eU k c, if_neg (by omega)]
    rw [hs, eA]
    by_cases hcj : c = p + 1
    · subst hcj
      rw [eL r (p + 1), if_pos ⟨rfl, by omega, hr2⟩,
        eU (p + 1) (p + 1), if_pos ⟨rfl, by omega, by omega⟩]
      rfl
    · have hcp : c ≤ p := by omega
      rw [eL r c, if_neg (by omega), eU c c, if_neg (by omega)]
      exact inv.hLdone c hc1 hcp r hr1 hr2
  · intro c hc r hr
    rw [eL r c, if_neg (by omega)]
    exact inv.hLtodo c (by omega) r hr
  · intro r c h
    rw [eU r c, if_neg (by omega)]
    exact inv.hUlower r c h
  · intro r hr1 hr2 c hc1 hc2
    have hs : sumL 1 (r - 1)
        (fun k => (stepLcol N (p + 1) (stepUrow N (p + 1) st)).L r k
          * (stepLcol N (p + 1) (stepUrow N (p + 1) st)).U k c)
        = sumL 1 (r - 1) (fun k => st.L r k * st.U k c) := by
      apply sumL_congr
      intro k hk1 hk2
      rw [eL r k, if_neg (by omega), eU k c, if_neg (by omega)]
    rw [hs, eA]
    by_cases hrj : r = p + 1
    · subst hrj
      rw [eU (p + 1) c, if_pos ⟨rfl, hc1, hc2⟩]
      rfl
    · have hrp : r ≤ p := by omega
      rw [eU r c, if_neg (by omega)]
      exact inv.hUdone r hr1 hrp c hc1 hc2
  · intro r hr c
    rw [eU r c, if_neg (by omega)]
    exact inv.hUtodo r (by omega) c

theorem LU_inv_final (N : ℕ) (st : LUState) :
    LUInv st.A N N (LU_doolittle N st) := by
  have key : ∀ p, p ≤ N → LUInv st.A N p
      ((List.range' 1 p).foldl (fun t j => stepLcol N j (stepUrow N j t))
        { st with L := fun r c => if r = c then 1 else 0, U := fun _ _ => 0 }) := by
    intro p
    induction p with
    | zero => intro _; exact LUInv_base st N
    | succ q ih =>
        intro hq
        rw [List.range'_concat, List.foldl_append, List.foldl_cons, List.foldl_nil]
        have h1q : 1 + 1 * q = q + 1 := by omega
        rw [h1q]
        exact LUInv_step N q st.A _ (by omega) (ih (by omega))
  exact key N (le_refl N)

theorem LU_product (N : ℕ) (st : LUState)
    (hpiv : ∀ j, 1 ≤ j → j ≤ N → (LU_doolittle N st).U j j ≠ 0)
    (i j : ℕ) (hi1 : 1 ≤ i) (hi2 : i ≤ N) (hj1 : 1 ≤ j) (hj2 : j ≤ N) :
    sumL 1 N (fun k => (LU_doolittle N st).L i k * (LU_doolittle N st).U k j)
      = st.A i j := by
  have inv := LU_inv_final N st
  rcases le_or_lt i j with hij | hij
  · -- i ≤ j: split the sum at k = i
    have hsplit := sumL_add_split 1 (i - 1) (1 + (N - i))
      (fun k => (LU_doolittle N st).L i k * (LU_doolittle N st).U k j)
    rw [show (i - 1) + (1 + (N - i)) = N by omega] at hsplit
    rw [hsplit, show 1 + (i - 1) = i by omega,
      show 1 + (N - i) = (N - i) + 1 by omega, sumL_succ_head]
    have htail : sumL (i + 1) (N - i)
        (fun k => (LU_doolittle N st).L i k * (LU_doolittle N st).U k j) = 0 := by
      rw [show (0 : ℚ) = sumL (i + 1) (N - i) (fun _ => 0) from
        (sumL_zero_fun _ _).symm]
      apply sumL_congr
      intro k hk1 hk2
      rw [inv.hLupper i k (by omega), zero_mul]
    rw [htail, inv.hLdiag i, one_mul,
      inv.hUdone i hi1 hi2 j hij hj2, inv.hA]
    ring
  · -- j < i: split the sum at k = j
    have hsplit := sumL_add_split 1 (j - 1) (1 + (N - j))
      (fun k => (LU_doolittle N st).L i k * (LU_doolittle N st).U k j)
    rw [show (j - 1) + (1 + (N - j)) = N by omega] at hsplit
    rw [hsplit, show 1 + (j - 1) = j by omega,
      show 1 + (N - j) = (N - j) + 1 by omega, sumL_succ_head]
    have htail : sumL (j + 1) (N - j)
        (fun k => (LU_doolittle N st).L i k * (LU_doolittle N st).U k j) = 0 := by
      rw [show (0 : ℚ) = sumL (j + 1) (N - j) (fun _ => 0) from
        (sumL_zero_fun _ _).symm]
      apply sumL_congr
      intro k hk1 hk2
      rw [inv.hUlower k j (by omega), mul_zero]
    rw [htail, inv.hLdone j hj1 hj2 i hij hi2, inv.hA,
      div_mul_cancel₀ _ (hpiv j hj1 hj2)]
    ring

/-- C1: for a square `N×N` system with every pivot `U(j,j)` produced by
the algorithm nonzero, `LU_doolittle` outputs a unit lower triangular `L`
(`L(i,i) = 1`, `L(i,j) = 0` for `j > i`) and an upper triangular `U`
(`U(j,i) = 0` for `i < j`) satisfying the Doolittle equations
`U(j,i) = A(j,i) - Σ_{k<j} L(j,k) U(k,i)` for `i ≥ j` and
`L(i,j) = (A(i,j) - Σ_{k<j} L(i,k) U(k,j)) / U(j,j)` for `i > j`,
and the product `L*U` reconstructs `A` exactly (exact `ℚ` arithmetic). -/
theorem claim_C1_LU_doolittle (N : ℕ) (st : LUState)
    (hpiv : ∀ j, 1 ≤ j → j ≤ N → (LU_doolittle N st).U j j ≠ 0) :
    (∀ i, 1 ≤ i → i ≤ N → (LU_doolittle N st).L i i = 1)
    ∧ (∀ i j, 1 ≤ i → i ≤ N → i < j → (LU_doolittle N st).L i j = 0)
    ∧ (∀ j i, 1 ≤ i → i < j → j ≤ N → (LU_doolittle N st).U j i = 0)
    ∧ (∀ j i, 1 ≤ j → j ≤ i → i ≤ N →
        (LU_doolittle N st).U j i = st.A j i
          - ∑ k in Finset.Icc 1 (j - 1),
              (LU_doolittle N st).L j k * (LU_doolittle N st).U k i)
    ∧ (∀ j i, 1 ≤ j → j < i → i ≤ N →
        (LU_doolittle N st).L i j = (st.A i j
          - ∑ k in Finset.Icc 1 (j - 1),
              (LU_doolittle N st).L i k * (LU_doolittle N st).U k j)
          / (LU_doolittle N st).U j j)
    ∧ (∀ i j, 1 ≤ i → i ≤ N → 1 ≤ j → j ≤ N →
        ∑ k in Finset.Icc 1 N,
            (LU_doolittle N st).L i k * (LU_doolittle N st).U k j
          = st.A i j) := by
  have inv := LU_inv_final N st
  refine ⟨fun i _ _ => inv.hLdiag i,
    fun i j _ _ h => inv.hLupper i j h,
    fun j i _ h _ => inv.hUlower j i h, ?_, ?_, ?_⟩
  · intro j i hj1 hji hiN
    rw [← sumL_eq_sum_Icc]
    have h := inv.hUdone j hj1 (by omega) i hji hiN
    rw [inv.hA] at h
    exact h
  · intro j i hj1 hji hiN
    rw [← sumL_eq_sum_Icc]
    have h := inv.hLdone j hj1 (by omega) i hji hiN
    rw [inv.hA] at h
    exact h
  · intro i j hi1 hi2 hj1 hj2
    rw [← sumL_eq_sum_Icc]
    exact LU_product N st hpiv i j hi1 hi2 hj1 hj2

theorem lu_pivots :
    (LU_doolittle 3 luSt0).U 1 1 = 1
    ∧ (LU_doolittle 3 luSt0).U 2 2 = -1
    ∧ (LU_doolittle 3 luSt0).U 3 3 = -3 := by
  have inv := LU_inv_final 3 luSt0
  have hA : luSt0.A = luA0 := rfl
  have e11 : (LU_doolittle 3 luSt0).U 1 1 = 1 := by
    have h := inv.hUdone 1 (by norm_num) (by norm_num) 1 (by norm_num) (by norm_num)
    rw [h, inv.hA, hA]
    norm_num [sumL, List.range', luA0]
  have e12 : (LU_doolittle 3 luSt0).U 1 2 = 1 := by
    have h := inv.hUdone 1 (by norm_num) (by norm_num) 2 (by norm_num) (by norm_num)
    rw [h, inv.hA, hA]
    norm_num [sumL, List.range', luA0]
  have e13 : (LU_doolittle 3 luSt0).U 1 3 = 2 := by
    have h := inv.hUdone 1 (by norm_num) (by norm_num) 3 (by norm_num) (by norm_num)
    rw [h, inv.hA, hA]
    norm_num [sumL, List.range', luA0]
  have eL21 : (LU_doolittle 3 luSt0).L 2 1 = 2 := by
    have h := inv.hLdone 1 (by norm_num) (by norm_num) 2 (by norm_num) (by norm_num)
    rw [h, inv.hA, hA, e11]
    norm_num [sumL, List.range', luA0]
  have eL31 : (LU_doolittle 3 luSt0).L 3 1 = 3 := by
    have h := inv.hLdone 1 (by norm_num) (by norm_num) 3 (by norm_num) (by norm_num)
    rw [h, inv.hA, hA, e11]
    norm_num [sumL, List.range', luA0]
  have e22 : (LU_doolittle 3 luSt0).U 2 2 = -1 := by
    have h := inv.hUdone 2 (by norm_num) (by norm_num) 2 (by norm_num) (by norm_num)
    rw [h, inv.hA, hA]
    norm_num [sumL, List.range', luA0, eL21, e12]
  have e23 : (LU_doolittle 3 luSt0).U 2 3 = -1 := by
    have h := inv.hUdone 2 (by norm_num) (by norm_num) 3 (by norm_num) (by norm_num)
    rw [h, inv.hA, hA]
    norm_num [sumL, List.range', luA0, eL21, e13]
  have eL32 : (LU_doolittle 3 luSt0).L 3 2 = 2 := by
    have h := inv.hLdone 2 (by norm_num) (by norm_num) 3 (by norm_num) (by norm_num)
    rw [h, inv.hA, hA, e22]
    norm_num [sumL, List.range', luA0, eL31, e12]
  have e33 : (LU_doolittle 3 luSt0).U 3 3 = -3 := by
    have h := inv.hUdone 3 (by norm_num) (by norm_num) 3 (by norm_num) (by norm_num)
    rw [h, inv.hA, hA]
    norm_num [sumL, List.range', luA0, eL31, eL32, e13, e23]
  exact ⟨e11, e22, e33⟩

theorem lu_pivots_ne_zero :
    ∀ j, 1 ≤ j → j ≤ 3 → (LU_doolittle 3 luSt0).U j j ≠ 0 := by
  intro j h1 h3
  interval_cases j
  · rw [lu_pivots.1]; norm_num
  · rw [lu_pivots.2.1]; norm_num
  · rw [lu_pivots.2.2]; norm_num

theorem claim_C1_witness :
    (∀ j, 1 ≤ j → j ≤ 3 → (LU_doolittle 3 luSt0).U j j ≠ 0)
    ∧ ∑ k in Finset.Icc 1 3,
        (LU_doolittle 3 luSt0).L 2 k * (LU_doolittle 3 luSt0).U k 3 = 3 := by
  refine ⟨lu_pivots_ne_zero, ?_⟩
  have h := (claim_C1_LU_doolittle 3 luSt0 lu_pivots_ne_zero).2.2.2.2.2 2 3
    (by norm_num) (by norm_num) (by norm_num) (by norm_num)
  rw [h]
  norm_num [luSt0, luA0]
